import Mathlib

/-!
Verification of the node-spellchecker engine and its host binding.

The binding layer (`src/main.cc`) is embedded directly: JavaScript values
become `JsValue`, the `Napi::CallbackInfo` argument list becomes
`List JsValue`, thrown `Napi::Error`s become `Except.error` with the same
message, and the abstract `SpellcheckerImplementation` the binding delegates
to becomes an explicit `Impl` record of engine operations over an engine
state type, exactly mirroring the `impl->...` indirection of the source.

The engine itself (dictionary, user overrides, tokenizer, lookup and
suggestion logic) is not part of the repository sources; those components
are modelled from the specification, as noted on each definition.
-/

/-- A JavaScript value as seen by the binding: a string, a Buffer
(identified by a heap id whose bytes live in a caller-owned heap),
a number, or anything else (modelled as `undef`). -/
inductive JsValue where
  | str : String → JsValue
  | buffer : Nat → JsValue
  | num : Int → JsValue
  | undef : JsValue
deriving Repr, DecidableEq

/-- The `IsString` test of the binding: true exactly on string values. -/
def jsIsString : JsValue → Bool
  | JsValue.str _ => true
  | _ => false

/-- The `IsBuffer` test of the binding: true exactly on Buffer values. -/
def jsIsBuffer : JsValue → Bool
  | JsValue.buffer _ => true
  | _ => false

/-- True when the argument list starts with a string value, i.e. when the
binding's `info.Length() < 1 || !info[0].IsString()` guard passes. -/
def firstString : List JsValue → Bool
  | JsValue.str _ :: _ => true
  | _ => false

/-- A token or misspelled range: a half-open `{start, end}` interval of
text-unit offsets (`end` is a Lean keyword, so the field is `stop`). -/
structure Token where
  start : Nat
  stop : Nat
deriving Repr, DecidableEq

/-- The abstract engine interface the binding delegates to
(`SpellcheckerImplementation` in the source), with explicit state passing:
each operation takes the engine state and returns results and, for mutating
operations, the successor state. -/
structure Impl (E : Type) where
  setDictLang : E → String → E × Bool
  setDictBytes : E → List Nat → E × Bool
  isMiss : E → String → Bool
  checkSp : E → List Nat → Nat → List Token
  addW : E → String → E
  removeW : E → String → E
  corrections : E → String → List String
  availDicts : E → String → List String

/-- The binding object's own state: the wrapped engine state plus the
`dictData` member, a persistent reference to a caller-supplied Buffer
(`none` when no buffer has been pinned). -/
structure BindState (E : Type) where
  engine : E
  dictData : Option Nat

/-- The UTF-16 code units of one Unicode scalar value: the value itself
below `0x10000`, otherwise the surrogate pair. -/
def charUtf16 (c : Char) : List Nat :=
  let v := c.toNat
  if v < 0x10000 then [v]
  else [0xD800 + (v - 0x10000) / 0x400, 0xDC00 + (v - 0x10000) % 0x400]

/-- The UTF-16 code-unit sequence of a string, as produced by the
binding's `ToString().Utf16Value()`. -/
def utf16Units (s : String) : List Nat :=
  (s.data.map charUtf16).flatten

/-- Embedding of `Spellchecker::SetDictionary`: reject a missing or
non-string first argument with "Bad argument"; with a second argument
present, reject a non-Buffer with its own message, otherwise pin the
Buffer into `dictData` and load the dictionary from its bytes (read from
the caller-owned `heap`); with one argument, load by language name. -/
def setDictionaryB {E : Type} (impl : Impl E) (heap : Nat → List Nat)
    (st : BindState E) (args : List JsValue) :
    Except String (BindState E × Bool) :=
  match args with
  | JsValue.str language :: rest =>
    match rest with
    | [] =>
      let er := impl.setDictLang st.engine language
      Except.ok ({ st with engine := er.1 }, er.2)
    | a1 :: _ =>
      match a1 with
      | JsValue.buffer id =>
        let er := impl.setDictBytes st.engine (heap id)
        Except.ok ({ engine := er.1, dictData := some id }, er.2)
      | _ => Except.error "setDictionary 2nd argument must be a Buffer"
  | _ => Except.error "Bad argument"

/-- Embedding of `Spellchecker::IsMisspelled`: "Bad argument" unless the
first argument is a string, else delegate to the engine. -/
def isMisspelledB {E : Type} (impl : Impl E) (st : BindState E)
    (args : List JsValue) : Except String Bool :=
  match args with
  | JsValue.str w :: _ => Except.ok (impl.isMiss st.engine w)
  | _ => Except.error "Bad argument"

/-- Embedding of `Spellchecker::CheckSpelling`: "Bad argument" unless the
first argument is a string; else build a buffer of the string's UTF-16
units followed by one zero unit, hand the engine that buffer together with
its full size, and return the engine's ranges as `(start, end)` pairs,
each value cast to `uint32_t`. -/
def checkSpellingB {E : Type} (impl : Impl E) (st : BindState E)
    (args : List JsValue) : Except String (List (Nat × Nat)) :=
  match args with
  | JsValue.str s :: _ =>
    let text := utf16Units s ++ [0]
    let ranges := impl.checkSp st.engine text text.length
    Except.ok (ranges.map (fun r => (r.start % 2 ^ 32, r.stop % 2 ^ 32)))
  | _ => Except.error "Bad argument"

/-- Embedding of `Spellchecker::Add`: "Bad argument" unless the first
argument is a string, else delegate to the engine and return undefined. -/
def addB {E : Type} (impl : Impl E) (st : BindState E)
    (args : List JsValue) : Except String (BindState E) :=
  match args with
  | JsValue.str w :: _ => Except.ok { st with engine := impl.addW st.engine w }
  | _ => Except.error "Bad argument"

/-- Embedding of `Spellchecker::Remove`: "Bad argument" unless the first
argument is a string, else delegate to the engine and return undefined. -/
def removeB {E : Type} (impl : Impl E) (st : BindState E)
    (args : List JsValue) : Except String (BindState E) :=
  match args with
  | JsValue.str w :: _ => Except.ok { st with engine := impl.removeW st.engine w }
  | _ => Except.error "Bad argument"

/-- Embedding of `Spellchecker::GetCorrectionsForMisspelling`:
"Bad argument" unless the first argument is a string, else delegate. -/
def correctionsB {E : Type} (impl : Impl E) (st : BindState E)
    (args : List JsValue) : Except String (List String) :=
  match args with
  | JsValue.str w :: _ => Except.ok (impl.corrections st.engine w)
  | _ => Except.error "Bad argument"

/-- Embedding of `Spellchecker::GetAvailableDictionaries`: the path
defaults to "."; a present first argument must be a string. -/
def availableDictionariesB {E : Type} (impl : Impl E) (st : BindState E)
    (args : List JsValue) : Except String (List String) :=
  match args with
  | [] => Except.ok (impl.availDicts st.engine ".")
  | JsValue.str p :: _ => Except.ok (impl.availDicts st.engine p)
  | _ => Except.error "Bad argument"

/-- True exactly when the call threw the "Bad argument" error. -/
def isBadArg {α : Type} : Except String α → Bool
  | Except.error m => m = "Bad argument"
  | Except.ok _ => false

/-- True exactly when the call returned normally. -/
def isOk {α : Type} : Except String α → Bool
  | Except.ok _ => true
  | Except.error _ => false

/-- A trivial engine over the unit state, used to evaluate the binding at
concrete inputs. -/
def unitImpl : Impl Unit where
  setDictLang := fun e _ => (e, true)
  setDictBytes := fun e _ => (e, true)
  isMiss := fun _ _ => false
  checkSp := fun _ _ _ => []
  addW := fun e _ => e
  removeW := fun e _ => e
  corrections := fun _ _ => []
  availDicts := fun _ _ => []

/-- A trivial engine whose scan reports one fixed range, used to evaluate
the range marshaling of the binding at concrete inputs. -/
def rangeImpl : Impl Unit :=
  { unitImpl with checkSp := fun _ _ _ => [⟨1, 3⟩] }

/-- Modelled from the spec: an affix rule `{flag, isPrefix, strip, add,
condition}` of the Dictionary (the engine's dictionary representation is
not part of the repository sources). `isPre` says whether the rule is a
prefix rule, `strip` is removed from the stem, `addPart` is attached, and
`cond` is the character-class condition on the stem. -/
structure AffixRule where
  flag : Nat
  isPre : Bool
  strip : List Char
  addPart : List Char
  cond : List Char → Bool

/-- Modelled from the spec: the immutable compiled Dictionary — a stem
list, each stem with its affix-rule flags, plus the indexed affix-rule
table (the engine's dictionary type is not part of the repository
sources). -/
structure Dict where
  stems : List (List Char × List Nat)
  affixRules : List AffixRule

/-- Modelled from the spec: how one affix rule transforms a stem into a
surface word — the condition must hold and the strip part must be present
on the matching side; otherwise the rule does not apply. -/
def applyRule (r : AffixRule) (stem : List Char) : Option (List Char) :=
  if r.cond stem then
    if r.isPre then
      if r.strip.isPrefixOf stem then
        some (r.addPart ++ stem.drop r.strip.length)
      else none
    else
      if r.strip.isSuffixOf stem then
        some (stem.take (stem.length - r.strip.length) ++ r.addPart)
      else none
  else none

/-- Modelled from the spec: the affix rules referenced by a stem's flag
set, looked up in the pre-indexed rule table. -/
def rulesFor (d : Dict) (flags : List Nat) : List AffixRule :=
  d.affixRules.filter (fun r => flags.contains r.flag)

/-- Modelled from the spec: the Dictionary membership test — a surface
word is in-dictionary if it equals a stem exactly, or equals a stem
transformed by one of its flagged affix rules. -/
def inDict (d : Dict) (w : List Char) : Bool :=
  d.stems.any (fun sf =>
    sf.1 == w || (rulesFor d sf.2).any (fun r => applyRule r sf.1 == some w))

/-- Modelled from the spec: whether a word appears in the stem list
itself (a dictionary entry proper, before affix transformation). -/
def isStem (d : Dict) (s : List Char) : Bool :=
  d.stems.any (fun sf => sf.1 == s)

/-- Modelled from the spec: the engine instance — the current Dictionary
(if any) beside the mutable UserOverrides `added`/`removed` word sets
(the engine implementation is not part of the repository sources). -/
structure Engine where
  dict : Option Dict
  added : List (List Char)
  removed : List (List Char)

/-- Modelled from the spec: `UserOverrides.add` — idempotent insertion
into the `added` set. -/
def addWord (e : Engine) (w : List Char) : Engine :=
  if e.added.contains w then e else { e with added := w :: e.added }

/-- Modelled from the spec: `UserOverrides.remove` — idempotent insertion
into the `removed` set. -/
def removeWord (e : Engine) (w : List Char) : Engine :=
  if e.removed.contains w then e else { e with removed := w :: e.removed }

/-- Modelled from the spec: `LookupEngine.isMisspelled` — removed words
first, then added words, then Dictionary membership, failing open when no
dictionary is loaded (the lookup engine is not part of the repository
sources). -/
def isMisspelled (e : Engine) (w : List Char) : Bool :=
  if e.removed.contains w then true
  else if e.added.contains w then false
  else
    match e.dict with
    | none => false
    | some d => !inDict d w

/-- Modelled from the spec: a text unit that can begin or end a token — a
letter or a digit. -/
def isCore (c : Char) : Bool := c.isAlpha || c.isDigit

/-- Modelled from the spec: the intra-word joiners, apostrophe and
hyphen. -/
def isJoiner (c : Char) : Bool := c == '\'' || c == '-'

/-- Modelled from the spec: a word-forming unit — letters, digits and the
joiners; everything else is a boundary. -/
def wordForming (c : Char) : Bool := isCore c || isJoiner c

/-- Modelled from the spec: the maximal runs of word-forming units of a
text, each with its start offset, found in one left-to-right pass (the
tokenizer is not part of the repository sources): a word-forming unit
either extends the run that starts right after it or opens a run of its
own. -/
def runsAux : List Char → Nat → List (Nat × List Char)
  | [], _ => []
  | c :: rest, i =>
    if wordForming c then
      match runsAux rest (i + 1) with
      | [] => [(i, [c])]
      | (j, run) :: rs =>
        if j = i + 1 then (i, c :: run) :: rs
        else (i, [c]) :: (j, run) :: rs
    else
      runsAux rest (i + 1)

/-- Modelled from the spec: trimming one run — leading and trailing
joiners are not part of the token; a run left empty by trimming yields no
token. -/
def trimRun (s : Nat) (cs : List Char) : Option Token :=
  let dropped := cs.dropWhile isJoiner
  let core := (dropped.reverse.dropWhile isJoiner).reverse
  if core.isEmpty then none
  else
    some ⟨s + (cs.length - dropped.length),
          s + (cs.length - dropped.length) + core.length⟩

/-- Modelled from the spec: `Tokenizer.scan` — every maximal run of
word-forming units, trimmed of leading/trailing joiners, is one token. -/
def scan (t : List Char) : List Token :=
  (runsAux t 0).filterMap (fun r => trimRun r.1 r.2)

/-- The substring of a text selected by a token's half-open range. -/
def tokChars (t : List Char) (tok : Token) : List Char :=
  (t.drop tok.start).take (tok.stop - tok.start)

/-- The character of a text at an offset, reading out of range as a
blank (a boundary unit). -/
def charAt (t : List Char) (i : Nat) : Char := t.getD i ' '

/-- Modelled from the spec: `LookupEngine.scanText` — run the tokenizer,
evaluate `isMisspelled` per token, emit a range for each failing token,
preserving token order and never aborting early. -/
def scanText (e : Engine) (t : List Char) : List Token :=
  (scan t).filter (fun tok => isMisspelled e (tokChars t tok))

/-- Modelled from the spec: the dictionary's alphabet — every character
occurring in a stem or in an affix rule's added part (the suggestion
engine is not part of the repository sources). -/
def alphabetOf (d : Dict) : List Char :=
  ((d.stems.map (fun sf => sf.1)).flatten
    ++ (d.affixRules.map (fun r => r.addPart)).flatten).dedup

/-- All strings reachable from a word by one character deletion. -/
def deletions : List Char → List (List Char)
  | [] => []
  | c :: rest => rest :: (deletions rest).map (fun w => c :: w)

/-- All strings reachable from a word by one adjacent transposition. -/
def transpositions : List Char → List (List Char)
  | [] => []
  | [_] => []
  | a :: b :: rest =>
    (b :: a :: rest) :: (transpositions (b :: rest)).map (fun w => a :: w)

/-- All strings reachable from a word by substituting one character by a
character of the alphabet. -/
def substitutions (alpha : List Char) : List Char → List (List Char)
  | [] => []
  | c :: rest =>
    (alpha.map (fun a => a :: rest))
      ++ (substitutions alpha rest).map (fun w => c :: w)

/-- All strings reachable from a word by inserting one character of the
alphabet. -/
def insertions (alpha : List Char) : List Char → List (List Char)
  | [] => alpha.map (fun a => [a])
  | c :: rest =>
    (alpha.map (fun a => a :: c :: rest))
      ++ (insertions alpha rest).map (fun w => c :: w)

/-- Modelled from the spec: the single-edit candidates of a word — one
deletion, insertion (from the given alphabet), substitution, or adjacent
transposition. -/
def edits1 (alpha : List Char) (w : List Char) : List (List Char) :=
  deletions w ++ transpositions w ++ substitutions alpha w
    ++ insertions alpha w

/-- Whether two words are one edit apart: the second is reachable from
the first by one deletion, insertion, substitution, or adjacent
transposition (insertions and substitutions can only use characters of
the result, so its own characters suffice as alphabet). -/
def oneEdit (w e : List Char) : Bool :=
  (edits1 e.dedup w).contains e

/-- Lexicographic order on words, used as the deterministic tie-breaker
of the suggestion ranking. -/
def lexLe : List Char → List Char → Bool
  | [], _ => true
  | _ :: _, [] => false
  | a :: as, b :: bs =>
    if a < b then true else if b < a then false else lexLe as bs

/-- Inserting one candidate into an already ordered candidate list. -/
def insertLex (x : List Char) : List (List Char) → List (List Char)
  | [] => [x]
  | y :: ys => if lexLe x y then x :: y :: ys else y :: insertLex x ys

/-- Sorting candidates into the deterministic tie-break order (insertion
sort, so that concrete candidate lists evaluate by computation). -/
def sortLex : List (List Char) → List (List Char)
  | [] => []
  | x :: xs => insertLex x (sortLex xs)

/-- Modelled from the spec: the case variants offered first by the
suggestion engine — a differently-cased form of the word that is
in-dictionary. -/
def caseVariants (d : Dict) (w : List Char) : List (List Char) :=
  ([w.map Char.toLower, w.map Char.toUpper].filter
    (fun v => v != w && inDict d v)).dedup

/-- Modelled from the spec: the affix-stripped candidates — undo each
affix rule on the word and keep residual stems that are directly in the
stem list. -/
def affixStripped (d : Dict) (w : List Char) : List (List Char) :=
  ((d.affixRules.map (fun r =>
    if r.isPre then
      if r.addPart.isPrefixOf w then [r.strip ++ w.drop r.addPart.length]
      else []
    else
      if r.addPart.isSuffixOf w then
        [w.take (w.length - r.addPart.length) ++ r.strip]
      else [])).flatten).filter (fun s => isStem d s)

/-- Modelled from the spec: the two-edit candidates — the edit operations
applied twice. -/
def edits2 (alpha : List Char) (w : List Char) : List (List Char) :=
  ((edits1 alpha w).map (edits1 alpha)).flatten

/-- Modelled from the spec: the fixed cap on the number of suggestions. -/
def suggestCap : Nat := 20

/-- Modelled from the spec: the minimum candidate count below which the
expensive two-edit step still runs (the spec leaves the exact minimum
open; three is used here). -/
def minSuggest : Nat := 3

/-- Modelled from the spec: the full ranked candidate list of the
suggestion engine before the cap — case variants first, then in-dictionary
single-edit candidates in deterministic order, then affix-stripped stems,
then (only when too few candidates exist so far) in-dictionary two-edit
candidates. -/
def suggestFull (d : Dict) (w : List Char) : List (List Char) :=
  let s1 := caseVariants d w
  let s2 := sortLex (((edits1 (alphabetOf d) w).filter
    (fun x => inDict d x && x != w)).dedup)
  let s3 := sortLex ((affixStripped d w).dedup)
  let base := (s1 ++ s2 ++ s3).dedup
  let s4 := if base.length < minSuggest then
      sortLex (((edits2 (alphabetOf d) w).filter
        (fun x => inDict d x && x != w)).dedup)
    else []
  (base ++ s4).dedup

/-- Modelled from the spec: `SuggestionEngine.suggest` — the ranked
candidates, cut off at the fixed cap. -/
def suggest (d : Dict) (w : List Char) : List (List Char) :=
  (suggestFull d w).take suggestCap

/-- The dictionary filename extension of the catalog's file-naming
convention. -/
def dicSuffix : List Char := ['.', 'd', 'i', 'c']

/-- Modelled from the spec: the language identifier derived from one
filename — the name minus the dictionary extension, or nothing when the
filename does not match the convention. -/
def dictLang (fname : List Char) : Option (List Char) :=
  if dicSuffix.isSuffixOf fname && decide (dicSuffix.length < fname.length)
  then some (fname.take (fname.length - dicSuffix.length))
  else none

/-- Modelled from the spec: `DictionaryCatalog.listAvailable` — the
filesystem is a map from a path to its direct entries (`none` for a
nonexistent path); a nonexistent path or one with no matching files
yields the empty sequence, never an error. -/
def listAvailable (fs : List Char → Option (List (List Char)))
    (path : List Char) : List (List Char) :=
  match fs path with
  | none => []
  | some files => files.filterMap dictLang

/-- A dictionary of the twenty-one two-letter stems "aa" through "au",
with no affix rules: more single-edit neighbours of "a" than the
suggestion cap admits. -/
def dict21 : Dict :=
  { stems := (List.range 21).map (fun i => (['a', Char.ofNat (97 + i)], [])),
    affixRules := [] }

/-- A dictionary of the single stem "ab", with no affix rules. -/
def dictAB : Dict := { stems := [(['a', 'b'], [])], affixRules := [] }

theorem isBadArg_ok {α : Type} (x : α) : isBadArg (Except.ok x) = false := rfl

theorem isBadArg_badMsg {α : Type} :
    isBadArg (α := α) (Except.error "Bad argument") = true := rfl

theorem isBadArg_bufMsg {α : Type} :
    isBadArg (α := α)
      (Except.error "setDictionary 2nd argument must be a Buffer") = false := rfl

theorem isOk_ok {α : Type} (x : α) : isOk (Except.ok x) = true := rfl

theorem isOk_error {α : Type} (m : String) :
    isOk (Except.error (α := α) m) = false := rfl

/-- C2 (counterexample): the claim that `setDictionary` with a byte
buffer retains no reference to the caller-owned buffer is false — after a
concrete call with caller buffer 7, the binding's `dictData` member holds
a reference to exactly that buffer. -/
theorem c2_counterexample :
    (match setDictionaryB unitImpl (fun _ => [65]) ⟨(), none⟩
        [JsValue.str "en", JsValue.buffer 7] with
      | Except.ok st2r => st2r.1.dictData
      | Except.error _ => none) = some 7 := rfl

/-- C2 (amended): whenever `setDictionary` is called with a string and a
Buffer and returns, the binding has pinned the caller's buffer — its
`dictData` member holds a persistent reference to that very buffer, so
the buffer is kept alive rather than copied and released. -/
theorem c2_setDictionary_pins_buffer {E : Type} (impl : Impl E)
    (heap : Nat → List Nat) (st : BindState E) (s : String) (id : Nat)
    (rest : List JsValue) (st2 : BindState E) (r : Bool)
    (h : setDictionaryB impl heap st (JsValue.str s :: JsValue.buffer id :: rest)
        = Except.ok (st2, r)) :
    st2.dictData = some id := by
  simp only [setDictionaryB, Except.ok.injEq, Prod.mk.injEq] at h
  rw [← h.1]

theorem c2_setDictionary_pins_buffer_witness :
    (⟨(), some 7⟩ : BindState Unit).dictData = some 7 :=
  c2_setDictionary_pins_buffer unitImpl (fun _ => [65]) ⟨(), none⟩ "en" 7 []
    ⟨(), some 7⟩ true rfl

/-- C9 (counterexample): the claim that a string first argument always
proceeds to the engine and returns normally is false — `setDictionary`
with a string first argument and a number second argument throws the
Buffer error instead of returning normally. -/
theorem c9_counterexample :
    firstString [JsValue.str "en", JsValue.num 1] = true ∧
    setDictionaryB unitImpl (fun _ => []) ⟨(), none⟩
        [JsValue.str "en", JsValue.num 1]
      = Except.error "setDictionary 2nd argument must be a Buffer" :=
  ⟨rfl, rfl⟩

/-- C9 (amended): each word/text operation of the binding throws
"Bad argument" exactly when called with no arguments or a non-string
first argument; with a string first argument, every operation except
`setDictionary` returns normally, and `setDictionary` returns normally
when given no second argument or a Buffer second argument but throws
"setDictionary 2nd argument must be a Buffer" on a non-Buffer second
argument. -/
theorem c9_bad_argument (E : Type) (impl : Impl E) (heap : Nat → List Nat)
    (st : BindState E) (args : List JsValue) :
    (isBadArg (setDictionaryB impl heap st args) = !firstString args) ∧
    (isBadArg (isMisspelledB impl st args) = !firstString args) ∧
    (isBadArg (checkSpellingB impl st args) = !firstString args) ∧
    (isBadArg (addB impl st args) = !firstString args) ∧
    (isBadArg (removeB impl st args) = !firstString args) ∧
    (isBadArg (correctionsB impl st args) = !firstString args) ∧
    (firstString args = true →
      isOk (isMisspelledB impl st args) = true ∧
      isOk (checkSpellingB impl st args) = true ∧
      isOk (addB impl st args) = true ∧
      isOk (removeB impl st args) = true ∧
      isOk (correctionsB impl st args) = true) ∧
    (∀ s, args = [JsValue.str s] →
      isOk (setDictionaryB impl heap st args) = true) ∧
    (∀ s id rest, args = JsValue.str s :: JsValue.buffer id :: rest →
      isOk (setDictionaryB impl heap st args) = true) ∧
    (∀ s a1 rest, args = JsValue.str s :: a1 :: rest →
      jsIsBuffer a1 = false →
      setDictionaryB impl heap st args
        = Except.error "setDictionary 2nd argument must be a Buffer") := by
  cases args with
  | nil =>
    simp [setDictionaryB, isMisspelledB, checkSpellingB, addB, removeB,
      correctionsB, isBadArg_badMsg, firstString]
  | cons a rest =>
    cases a with
    | str s =>
      cases rest with
      | nil =>
        simp [setDictionaryB, isMisspelledB, checkSpellingB, addB, removeB,
          correctionsB, isBadArg_ok, isOk_ok, firstString]
      | cons a1 rest2 =>
        cases a1 <;>
          simp [setDictionaryB, isMisspelledB, checkSpellingB, addB, removeB,
            correctionsB, isBadArg_ok, isBadArg_bufMsg, isOk_ok, firstString,
            jsIsBuffer]
    | buffer id =>
      simp [setDictionaryB, isMisspelledB, checkSpellingB, addB, removeB,
        correctionsB, isBadArg_badMsg, firstString]
    | num n =>
      simp [setDictionaryB, isMisspelledB, checkSpellingB, addB, removeB,
        correctionsB, isBadArg_badMsg, firstString]
    | undef =>
      simp [setDictionaryB, isMisspelledB, checkSpellingB, addB, removeB,
        correctionsB, isBadArg_badMsg, firstString]

theorem c9_bad_argument_witness :
    isOk (isMisspelledB unitImpl ⟨(), none⟩ [JsValue.str "hello"]) = true ∧
    setDictionaryB unitImpl (fun _ => []) ⟨(), none⟩
        [JsValue.str "en", JsValue.undef]
      = Except.error "setDictionary 2nd argument must be a Buffer" := by
  constructor
  · exact ((c9_bad_argument Unit unitImpl (fun _ => []) ⟨(), none⟩
      [JsValue.str "hello"]).2.2.2.2.2.2.1 rfl).1
  · exact (c9_bad_argument Unit unitImpl (fun _ => []) ⟨(), none⟩
      [JsValue.str "en", JsValue.undef]).2.2.2.2.2.2.2.2.2 "en" JsValue.undef []
      rfl rfl

theorem charUtf16_lt (c : Char) : ∀ u ∈ charUtf16 c, u < 2 ^ 16 := by
  have hv : c.toNat < 0x110000 := by
    have h := c.valid
    simp only [UInt32.isValidChar, Nat.isValidChar] at h
    have he : Char.toNat c = c.val.toNat := rfl
    rw [he]
    rcases h with h | h <;> omega
  intro u hu
  simp only [charUtf16] at hu
  by_cases hsmall : c.toNat < 0x10000
  · rw [if_pos hsmall] at hu
    simp only [List.mem_singleton] at hu
    omega
  · rw [if_neg hsmall] at hu
    simp only [List.mem_cons, List.not_mem_nil, or_false] at hu
    have hd : (c.toNat - 0x10000) / 0x400 < 0x400 :=
      Nat.div_lt_of_lt_mul (by omega)
    have hm : (c.toNat - 0x10000) % 0x400 < 0x400 := Nat.mod_lt _ (by omega)
    rcases hu with h | h <;> omega

/-- C10 (confirmed): `checkSpelling` hands the engine a buffer of the
input's UTF-16 code units plus one trailing zero unit, whose size —
including the trailing zero — is passed as the text length; and, as long
as the engine's ranges fit in 32 bits (they are text offsets), every
returned `(start, end)` pair carries the engine's values unchanged. -/
theorem c10_checkSpelling_marshaling {E : Type} (impl : Impl E)
    (st : BindState E) (s : String) (rest : List JsValue)
    (hb : ∀ r ∈ impl.checkSp st.engine (utf16Units s ++ [0])
        (utf16Units s ++ [0]).length, r.start < 2 ^ 32 ∧ r.stop < 2 ^ 32) :
    (utf16Units s ++ [0]).length = (utf16Units s).length + 1 ∧
    (utf16Units s ++ [0]).getLast? = some 0 ∧
    (∀ u ∈ utf16Units s ++ [0], u < 2 ^ 16) ∧
    checkSpellingB impl st (JsValue.str s :: rest)
      = Except.ok ((impl.checkSp st.engine (utf16Units s ++ [0])
          ((utf16Units s).length + 1)).map (fun r => (r.start, r.stop))) := by
  refine ⟨by simp, List.getLast?_concat _, ?_, ?_⟩
  · intro u hu
    rcases List.mem_append.mp hu with h | h
    · simp only [utf16Units, List.mem_flatten, List.mem_map] at h
      obtain ⟨l, ⟨c, _, rfl⟩, hul⟩ := h
      exact charUtf16_lt c u hul
    · simp only [List.mem_singleton] at h
      omega
  · have hlen : (utf16Units s ++ [0]).length = (utf16Units s).length + 1 := by
      simp
    simp only [checkSpellingB, hlen] at hb ⊢
    refine congrArg Except.ok (List.map_congr_left (fun r hr => ?_))
    have hrb := hb r hr
    simp only [Nat.mod_eq_of_lt hrb.1, Nat.mod_eq_of_lt hrb.2]

theorem c10_checkSpelling_marshaling_witness :
    checkSpellingB rangeImpl ⟨(), none⟩ [JsValue.str "ab"]
      = Except.ok [(1, 3)] := by
  have h := c10_checkSpelling_marshaling rangeImpl ⟨(), none⟩ "ab" []
    (by decide)
  rw [h.2.2.2]
  rfl

/-- C1 (confirmed): `isMisspelled` evaluates removal first, then
addition, then dictionary membership: a removed word is misspelled, an
added (not removed) word is correctly spelled, otherwise the word is
correct exactly when the Dictionary membership test succeeds; a word
present in both `added` and `removed` is treated as removed. -/
theorem c1_isMisspelled_order (e : Engine) (w : List Char) :
    (w ∈ e.removed → isMisspelled e w = true) ∧
    (w ∉ e.removed → w ∈ e.added → isMisspelled e w = false) ∧
    (w ∉ e.removed → w ∉ e.added →
      ∀ d, e.dict = some d →
        (isMisspelled e w = false ↔ inDict d w = true)) ∧
    (w ∈ e.removed → w ∈ e.added → isMisspelled e w = true) := by
  unfold isMisspelled
  refine ⟨fun h1 => by simp [h1], fun h1 h2 => by simp [h1, h2],
    fun h1 h2 d hd => by simp [h1, h2, hd], fun h1 _ => by simp [h1]⟩

theorem c1_isMisspelled_order_witness :
    isMisspelled ⟨none, [['a']], [['a']]⟩ ['a'] = true :=
  (c1_isMisspelled_order ⟨none, [['a']], [['a']]⟩ ['a']).2.2.2 (by decide)
    (by decide)

theorem addWord_mem (e : Engine) (w : List Char) (h : w ∈ e.added) :
    addWord e w = e := by
  unfold addWord
  simp [h]

theorem removeWord_mem (e : Engine) (w : List Char) (h : w ∈ e.removed) :
    removeWord e w = e := by
  unfold removeWord
  simp [h]

/-- C7 (confirmed): `add` and `remove` are idempotent total operations —
applying either twice to any engine state yields exactly the state of
applying it once. -/
theorem c7_add_remove_idempotent (e : Engine) (w : List Char) :
    addWord (addWord e w) w = addWord e w ∧
    removeWord (removeWord e w) w = removeWord e w := by
  constructor
  · have hmem : w ∈ (addWord e w).added := by
      unfold addWord
      by_cases h : w ∈ e.added <;> simp [h]
    exact addWord_mem _ w hmem
  · have hmem : w ∈ (removeWord e w).removed := by
      unfold removeWord
      by_cases h : w ∈ e.removed <;> simp [h]
    exact removeWord_mem _ w hmem

/-- C4 (counterexample): fail-open does not hold for every word once
overrides exist — on an engine with no dictionary whose overrides removed
"x", `isMisspelled "x"` is true (removal wins over fail-open) and
`scanText "x"` returns a nonempty range list. -/
theorem c4_counterexample :
    (⟨none, [], [['x']]⟩ : Engine).dict = none ∧
    isMisspelled ⟨none, [], [['x']]⟩ ['x'] = true ∧
    scanText ⟨none, [], [['x']]⟩ ['x'] ≠ [] :=
  ⟨rfl, by decide, by decide⟩

/-- C4 (amended): with no dictionary loaded and no removed-word
overrides, the engine fails open — every word is reported correctly
spelled and every text scan returns the empty range list. -/
theorem c4_fail_open (e : Engine) (w t : List Char) (hd : e.dict = none)
    (hr : e.removed = []) :
    isMisspelled e w = false ∧ scanText e t = [] := by
  have hm : ∀ v : List Char, isMisspelled e v = false := by
    intro v
    unfold isMisspelled
    rw [hr, hd]
    by_cases h : e.added.contains v <;> simp [h]
  refine ⟨hm w, ?_⟩
  unfold scanText
  simp [hm]

theorem c4_fail_open_witness :
    isMisspelled ⟨none, [], []⟩ ['y'] = false ∧
    scanText ⟨none, [], []⟩ ['x'] = [] :=
  c4_fail_open ⟨none, [], []⟩ ['y'] ['x'] rfl rfl

/-- C8 (confirmed): `getAvailableDictionaries` derives its language
identifiers from the filenames directly under the given path, and yields
the empty sequence — never an error — for a nonexistent path or a path
with no matching files. -/
theorem c8_listAvailable (fs : List Char → Option (List (List Char)))
    (p : List Char) :
    (fs p = none → listAvailable fs p = []) ∧
    (∀ files, fs p = some files →
      ((∀ f ∈ files, dictLang f = none) → listAvailable fs p = []) ∧
      (∀ l ∈ listAvailable fs p, ∃ f ∈ files, dictLang f = some l)) := by
  constructor
  · intro h
    simp [listAvailable, h]
  · intro files h
    constructor
    · intro hall
      simp only [listAvailable, h]
      exact List.filterMap_eq_nil_iff.mpr hall
    · intro l hl
      simp only [listAvailable, h, List.mem_filterMap] at hl
      exact hl

theorem c8_listAvailable_witness :
    listAvailable (fun _ => none) ['/', 'n', 'o'] = [] :=
  (c8_listAvailable (fun _ => none) ['/', 'n', 'o']).1 rfl

theorem isStem_inDict (d : Dict) (e : List Char) (h : isStem d e = true) :
    inDict d e = true := by
  unfold isStem at h
  unfold inDict
  simp only [List.any_eq_true] at h ⊢
  obtain ⟨sf, hsf, hs⟩ := h
  exact ⟨sf, hsf, by simp [hs]⟩

theorem substitutions_mono (A B : List Char) (hAB : ∀ c ∈ A, c ∈ B)
    (w x : List Char) (hx : x ∈ substitutions A w) :
    x ∈ substitutions B w := by
  induction w generalizing x with
  | nil => simp [substitutions] at hx
  | cons c rest ih =>
    simp only [substitutions, List.mem_append, List.mem_map] at hx ⊢
    rcases hx with ⟨a, ha, rfl⟩ | ⟨y, hy, rfl⟩
    · exact Or.inl ⟨a, hAB a ha, rfl⟩
    · exact Or.inr ⟨y, ih y hy, rfl⟩

theorem insertions_mono (A B : List Char) (hAB : ∀ c ∈ A, c ∈ B)
    (w x : List Char) (hx : x ∈ insertions A w) : x ∈ insertions B w := by
  induction w generalizing x with
  | nil =>
    simp only [insertions, List.mem_map] at hx ⊢
    obtain ⟨a, ha, rfl⟩ := hx
    exact ⟨a, hAB a ha, rfl⟩
  | cons c rest ih =>
    simp only [insertions, List.mem_append, List.mem_map] at hx ⊢
    rcases hx with ⟨a, ha, rfl⟩ | ⟨y, hy, rfl⟩
    · exact Or.inl ⟨a, hAB a ha, rfl⟩
    · exact Or.inr ⟨y, ih y hy, rfl⟩

theorem edits1_mono (A B : List Char) (hAB : ∀ c ∈ A, c ∈ B)
    (w x : List Char) (hx : x ∈ edits1 A w) : x ∈ edits1 B w := by
  unfold edits1 at hx ⊢
  simp only [List.mem_append] at hx ⊢
  rcases hx with ((h | h) | h) | h
  · exact Or.inl (Or.inl (Or.inl h))
  · exact Or.inl (Or.inl (Or.inr h))
  · exact Or.inl (Or.inr (substitutions_mono A B hAB w x h))
  · exact Or.inr (insertions_mono A B hAB w x h)

theorem stem_chars_in_alphabet (d : Dict) (e : List Char)
    (h : isStem d e = true) : ∀ c ∈ e, c ∈ alphabetOf d := by
  intro c hc
  unfold isStem at h
  simp only [List.any_eq_true, beq_iff_eq] at h
  obtain ⟨sf, hsf, hs⟩ := h
  unfold alphabetOf
  rw [List.mem_dedup]
  refine List.mem_append.mpr (Or.inl ?_)
  rw [List.mem_flatten]
  refine ⟨sf.1, List.mem_map.mpr ⟨sf, hsf, rfl⟩, ?_⟩
  rw [hs]
  exact hc

theorem mem_insertLex (x y : List Char) (l : List (List Char)) :
    x ∈ insertLex y l ↔ x = y ∨ x ∈ l := by
  induction l with
  | nil => simp [insertLex]
  | cons z zs ih =>
    unfold insertLex
    by_cases h : lexLe y z
    · simp [h]
    · rw [if_neg h]
      simp only [List.mem_cons, ih]
      tauto

theorem mem_sortLex (x : List Char) (l : List (List Char)) :
    x ∈ sortLex l ↔ x ∈ l := by
  induction l with
  | nil => simp [sortLex]
  | cons y ys ih =>
    simp [sortLex, mem_insertLex, ih]

/-- C5 (counterexample): the cap and the unconditional one-edit inclusion
cannot both hold — over the dictionary of the twenty-one stems "aa".."au",
the entry "au" is one edit (an insertion) away from the word "a" and is
in the dictionary, yet the capped output of `suggest "a"` omits it. -/
theorem c5_counterexample :
    isStem dict21 ['a', 'u'] = true ∧
    oneEdit ['a'] ['a', 'u'] = true ∧
    (suggest dict21 ['a']).length ≤ 20 ∧
    ['a', 'u'] ∉ suggest dict21 ['a'] := by decide

/-- C5 (amended): the suggestion output never exceeds the fixed
20-candidate cap; and a dictionary entry exactly one edit away from the
word appears in the output provided the engine's full candidate list fits
within the cap (when more than 20 candidates exist, the cap necessarily
cuts some one-edit entries off). -/
theorem c5_suggest_cap_and_one_edit (d : Dict) (w e : List Char) :
    (suggest d w).length ≤ suggestCap ∧
    (isStem d e = true → oneEdit w e = true → e ≠ w →
      (suggestFull d w).length ≤ suggestCap → e ∈ suggest d w) := by
  constructor
  · unfold suggest
    rw [List.length_take]
    exact min_le_left _ _
  · intro hstem hedit hne hlen
    unfold suggest
    rw [List.take_of_length_le hlen]
    have he1 : e ∈ edits1 e.dedup w := by
      simpa [oneEdit] using hedit
    have hsub : ∀ c ∈ e.dedup, c ∈ alphabetOf d := by
      intro c hc
      exact stem_chars_in_alphabet d e hstem c (List.mem_dedup.mp hc)
    have he2 : e ∈ edits1 (alphabetOf d) w :=
      edits1_mono e.dedup (alphabetOf d) hsub w e he1
    unfold suggestFull
    simp only [List.mem_dedup, List.mem_append]
    left
    left
    right
    rw [mem_sortLex, List.mem_dedup, List.mem_filter]
    refine ⟨he2, ?_⟩
    simp [isStem_inDict d e hstem, bne_iff_ne, hne]

theorem c5_suggest_cap_and_one_edit_witness :
    ['a', 'b'] ∈ suggest dictAB ['a'] :=
  (c5_suggest_cap_and_one_edit dictAB ['a'] ['a', 'b']).2 (by decide)
    (by decide) (by decide) (by decide)

theorem joiner_not_core (c : Char) (h : isJoiner c = true) :
    isCore c = false := by
  unfold isJoiner at h
  simp only [Bool.or_eq_true, beq_iff_eq] at h
  rcases h with rfl | rfl <;> decide

theorem not_wordForming_not_core (c : Char) (h : wordForming c = false) :
    isCore c = false := by
  unfold wordForming at h
  exact (Bool.or_eq_false_iff.mp h).1

theorem wf_not_joiner_core (c : Char) (h : wordForming c = true)
    (hj : isJoiner c = false) : isCore c = true := by
  unfold wordForming at h
  rw [hj, Bool.or_false] at h
  exact h

theorem runsAux_cons_wf (c : Char) (rest : List Char) (i : Nat)
    (h : wordForming c = true) :
    ∃ run rs, runsAux (c :: rest) i = (i, c :: run) :: rs := by
  rcases hr : runsAux rest (i + 1) with _ | ⟨⟨j, run⟩, rs⟩
  · simp only [runsAux, if_pos h, hr]
    exact ⟨[], [], rfl⟩
  · by_cases hj : j = i + 1
    · simp only [runsAux, if_pos h, hr, if_pos hj]
      exact ⟨run, rs, rfl⟩
    · simp only [runsAux, if_pos h, hr, if_neg hj]
      exact ⟨[], (j, run) :: rs, rfl⟩

theorem runsAux_cons_nwf (c : Char) (rest : List Char) (i : Nat)
    (h : wordForming c = false) :
    runsAux (c :: rest) i = runsAux rest (i + 1) := by
  simp only [runsAux]
  rw [if_neg (by simp [h])]

theorem runsAux_eq_nil (l : List Char) (i : Nat) :
    runsAux l i = [] ↔ ∀ c ∈ l, wordForming c = false := by
  induction l generalizing i with
  | nil => simp [runsAux]
  | cons c rest ih =>
    by_cases h : wordForming c
    · obtain ⟨run, rs, hr⟩ := runsAux_cons_wf c rest i h
      rw [hr]
      simp [h]
    · have h' : wordForming c = false := by simpa using h
      rw [runsAux_cons_nwf c rest i h', ih]
      simp [List.forall_mem_cons, h']

theorem runsAux_lower (l : List Char) (i : Nat) :
    ∀ s cs, (s, cs) ∈ runsAux l i → i ≤ s := by
  induction l generalizing i with
  | nil => simp [runsAux]
  | cons c rest ih =>
    intro s cs hm
    by_cases h : wordForming c
    · rcases hr : runsAux rest (i + 1) with _ | ⟨⟨j, run⟩, rs⟩
      · simp only [runsAux, if_pos h, hr] at hm
        simp only [List.mem_singleton, Prod.mk.injEq] at hm
        omega
      · by_cases hj : j = i + 1
        · simp only [runsAux, if_pos h, hr, if_pos hj] at hm
          rcases List.mem_cons.mp hm with hh | ht
          · simp only [Prod.mk.injEq] at hh
            omega
          · have hmem : (s, cs) ∈ runsAux rest (i + 1) := by
              rw [hr]
              exact List.mem_cons_of_mem _ ht
            have := ih (i + 1) s cs hmem
            omega
        · simp only [runsAux, if_pos h, hr, if_neg hj] at hm
          rcases List.mem_cons.mp hm with hh | ht
          · simp only [Prod.mk.injEq] at hh
            omega
          · have hmem : (s, cs) ∈ runsAux rest (i + 1) := by
              rw [hr]
              exact ht
            have := ih (i + 1) s cs hmem
            omega
    · have h' : wordForming c = false := by simpa using h
      rw [runsAux_cons_nwf c rest i h'] at hm
      have := ih (i + 1) s cs hm
      omega

theorem runsAux_runs_wf (l : List Char) (i : Nat) :
    ∀ s cs, (s, cs) ∈ runsAux l i →
      cs ≠ [] ∧ ∀ c ∈ cs, wordForming c = true := by
  induction l generalizing i with
  | nil => simp [runsAux]
  | cons c rest ih =>
    intro s cs hm
    by_cases h : wordForming c
    · rcases hr : runsAux rest (i + 1) with _ | ⟨⟨j, run⟩, rs⟩
      · simp only [runsAux, if_pos h, hr] at hm
        simp only [List.mem_singleton, Prod.mk.injEq] at hm
        obtain ⟨_, hcs⟩ := hm
        subst hcs
        exact ⟨by simp, by simp [h]⟩
      · have hhead := ih (i + 1) j run (by rw [hr]; exact List.mem_cons_self _ _)
        by_cases hj : j = i + 1
        · simp only [runsAux, if_pos h, hr, if_pos hj] at hm
          rcases List.mem_cons.mp hm with hh | ht
          · simp only [Prod.mk.injEq] at hh
            obtain ⟨_, hcs⟩ := hh
            subst hcs
            refine ⟨by simp, ?_⟩
            intro x hx
            rcases List.mem_cons.mp hx with rfl | hx2
            · exact h
            · exact hhead.2 x hx2
          · exact ih (i + 1) s cs (by rw [hr]; exact List.mem_cons_of_mem _ ht)
        · simp only [runsAux, if_pos h, hr, if_neg hj] at hm
          rcases List.mem_cons.mp hm with hh | ht
          · simp only [Prod.mk.injEq] at hh
            obtain ⟨_, hcs⟩ := hh
            subst hcs
            exact ⟨by simp, by simp [h]⟩
          · exact ih (i + 1) s cs (by rw [hr]; exact ht)
    · have h' : wordForming c = false := by simpa using h
      rw [runsAux_cons_nwf c rest i h'] at hm
      exact ih (i + 1) s cs hm

theorem runsAux_pairwise (l : List Char) (i : Nat) :
    List.Pairwise (fun a b => a.1 + a.2.length ≤ b.1) (runsAux l i) := by
  induction l generalizing i with
  | nil => simp [runsAux]
  | cons c rest ih =>
    by_cases h : wordForming c
    · rcases hr : runsAux rest (i + 1) with _ | ⟨⟨j, run⟩, rs⟩
      · simp only [runsAux, if_pos h, hr]
        simp
      · have hpw := ih (i + 1)
        rw [hr] at hpw
        by_cases hj : j = i + 1
        · simp only [runsAux, if_pos h, hr, if_pos hj]
          rw [List.pairwise_cons] at hpw ⊢
          refine ⟨?_, hpw.2⟩
          intro b hb
          have hjb : j + run.length ≤ b.1 := hpw.1 b hb
          show i + (c :: run).length ≤ b.1
          simp only [List.length_cons]
          omega
        · simp only [runsAux, if_pos h, hr, if_neg hj]
          rw [List.pairwise_cons]
          constructor
          · intro b hb
            obtain ⟨b1, b2⟩ := b
            have hlow : i + 1 ≤ b1 :=
              runsAux_lower rest (i + 1) b1 b2 (by rw [hr]; exact hb)
            show i + [c].length ≤ b1
            simp only [List.length_cons, List.length_nil]
            omega
          · exact hpw
    · have h' : wordForming c = false := by simpa using h
      rw [runsAux_cons_nwf c rest i h']
      exact ih (i + 1)

theorem runsAux_decomp (l : List Char) (i : Nat) :
    ∀ s cs, (s, cs) ∈ runsAux l i →
      ∃ pre post, l = pre ++ cs ++ post ∧ pre.length + i = s ∧
        (∀ c, pre.getLast? = some c → wordForming c = false) ∧
        (∀ c, post.head? = some c → wordForming c = false) := by
  induction l generalizing i with
  | nil => simp [runsAux]
  | cons c rest ih =>
    intro s cs hm
    by_cases h : wordForming c
    · rcases hr : runsAux rest (i + 1) with _ | ⟨⟨j, run⟩, rs⟩
      · simp only [runsAux, if_pos h, hr, List.mem_singleton,
          Prod.mk.injEq] at hm
        obtain ⟨hs, hcs⟩ := hm
        subst hcs
        refine ⟨[], rest, by simp, by simpa using hs.symm, by simp, ?_⟩
        intro x hx
        have hall := (runsAux_eq_nil rest (i + 1)).mp hr
        cases rest with
        | nil => simp at hx
        | cons r rest2 =>
          simp only [List.head?_cons, Option.some.injEq] at hx
          subst hx
          exact hall r (List.mem_cons_self _ _)
      · by_cases hj : j = i + 1
        · simp only [runsAux, if_pos h, hr, if_pos hj] at hm
          rcases List.mem_cons.mp hm with hh | ht
          · simp only [Prod.mk.injEq] at hh
            obtain ⟨hs, hcs⟩ := hh
            subst hcs
            obtain ⟨pre2, post2, hdec, hlen, hpre2, hpost2⟩ :=
              ih (i + 1) j run (by rw [hr]; exact List.mem_cons_self _ _)
            have hpre2len : pre2.length = 0 := by omega
            have hpre2nil : pre2 = [] := List.length_eq_zero.mp hpre2len
            subst hpre2nil
            simp only [List.nil_append] at hdec
            refine ⟨[], post2, ?_, by simpa using hs.symm, by simp, hpost2⟩
            simp [hdec]
          · obtain ⟨pre2, post2, hdec, hlen, hpre2, hpost2⟩ :=
              ih (i + 1) s cs (by rw [hr]; exact List.mem_cons_of_mem _ ht)
            have hrunne : run ≠ [] :=
              (runsAux_runs_wf rest (i + 1) j run
                (by rw [hr]; exact List.mem_cons_self _ _)).1
            have hrunlen : 1 ≤ run.length := by
              cases run with
              | nil => exact absurd rfl hrunne
              | cons _ _ => simp
            have hpw := runsAux_pairwise rest (i + 1)
            rw [hr, List.pairwise_cons] at hpw
            have hslow : j + run.length ≤ s := hpw.1 (s, cs) ht
            have hpre2len : 1 ≤ pre2.length := by omega
            cases pre2 with
            | nil => simp at hpre2len
            | cons p ps =>
              refine ⟨c :: p :: ps, post2, by simp [hdec], ?_, ?_, hpost2⟩
              · simp only [List.length_cons] at hlen ⊢
                omega
              · intro x hx
                rw [List.getLast?_cons_cons] at hx
                exact hpre2 x hx
        · simp only [runsAux, if_pos h, hr, if_neg hj] at hm
          rcases List.mem_cons.mp hm with hh | ht
          · simp only [Prod.mk.injEq] at hh
            obtain ⟨hs, hcs⟩ := hh
            subst hcs
            refine ⟨[], rest, by simp, by simpa using hs.symm, by simp, ?_⟩
            intro x hx
            cases rest with
            | nil => simp at hx
            | cons r rest2 =>
              simp only [List.head?_cons, Option.some.injEq] at hx
              subst hx
              by_contra hwf
              have hwf2 : wordForming r = true := by simpa using hwf
              obtain ⟨run2, rs2, hr2⟩ := runsAux_cons_wf r rest2 (i + 1) hwf2
              rw [hr2] at hr
              simp only [List.cons.injEq, Prod.mk.injEq] at hr
              exact hj hr.1.1.symm
          · obtain ⟨pre2, post2, hdec, hlen, hpre2, hpost2⟩ :=
              ih (i + 1) s cs (by rw [hr]; exact ht)
            have hjlow : i + 1 ≤ j :=
              runsAux_lower rest (i + 1) j run
                (by rw [hr]; exact List.mem_cons_self _ _)
            have hsge : i + 2 ≤ s := by
              rcases List.mem_cons.mp ht with hh2 | ht2
              · simp only [Prod.mk.injEq] at hh2
                omega
              · have hpw := runsAux_pairwise rest (i + 1)
                rw [hr, List.pairwise_cons] at hpw
                have hs2 : j + run.length ≤ s := hpw.1 (s, cs) ht2
                have hrunne : run ≠ [] :=
                  (runsAux_runs_wf rest (i + 1) j run
                    (by rw [hr]; exact List.mem_cons_self _ _)).1
                have hrunlen : 1 ≤ run.length := by
                  cases run with
                  | nil => exact absurd rfl hrunne
                  | cons _ _ => simp
                omega
            have hpre2len : 1 ≤ pre2.length := by omega
            cases pre2 with
            | nil => simp at hpre2len
            | cons p ps =>
              refine ⟨c :: p :: ps, post2, by simp [hdec], ?_, ?_, hpost2⟩
              · simp only [List.length_cons] at hlen ⊢
                omega
              · intro x hx
                rw [List.getLast?_cons_cons] at hx
                exact hpre2 x hx
    · have h' : wordForming c = false := by simpa using h
      rw [runsAux_cons_nwf c rest i h'] at hm
      obtain ⟨pre2, post2, hdec, hlen, hpre2, hpost2⟩ := ih (i + 1) s cs hm
      refine ⟨c :: pre2, post2, by simp [hdec], ?_, ?_, hpost2⟩
      · simp only [List.length_cons]
        omega
      · intro x hx
        cases pre2 with
        | nil =>
          simp only [List.getLast?_singleton, Option.some.injEq] at hx
          subst hx
          exact h'
        | cons p ps =>
          rw [List.getLast?_cons_cons] at hx
          exact hpre2 x hx

theorem trimRun_decomp (s : Nat) (cs : List Char) (tok : Token)
    (h : trimRun s cs = some tok) :
    ∃ lead core trail, cs = lead ++ core ++ trail ∧
      (∀ c ∈ lead, isJoiner c = true) ∧
      (∀ c ∈ trail, isJoiner c = true) ∧
      core ≠ [] ∧
      (∀ c, core.head? = some c → isJoiner c = false) ∧
      (∀ c, core.getLast? = some c → isJoiner c = false) ∧
      tok.start = s + lead.length ∧
      tok.stop = s + lead.length + core.length := by
  simp only [trimRun] at h
  by_cases hE :
      ((cs.dropWhile isJoiner).reverse.dropWhile isJoiner).reverse.isEmpty
  · rw [if_pos hE] at h
    simp at h
  · rw [if_neg hE] at h
    have htok :
        tok = ⟨s + (cs.length - (cs.dropWhile isJoiner).length),
          s + (cs.length - (cs.dropWhile isJoiner).length)
            + ((cs.dropWhile isJoiner).reverse.dropWhile
                isJoiner).reverse.length⟩ :=
      (Option.some.inj h).symm
    have hCT :
        ((cs.dropWhile isJoiner).reverse.dropWhile isJoiner).reverse
          ++ ((cs.dropWhile isJoiner).reverse.takeWhile isJoiner).reverse
        = cs.dropWhile isJoiner := by
      rw [← List.reverse_append, List.takeWhile_append_dropWhile,
        List.reverse_reverse]
    have hlen1 :
        (cs.takeWhile isJoiner).length + (cs.dropWhile isJoiner).length
          = cs.length := by
      rw [← List.length_append, List.takeWhile_append_dropWhile]
    refine ⟨cs.takeWhile isJoiner,
      ((cs.dropWhile isJoiner).reverse.dropWhile isJoiner).reverse,
      ((cs.dropWhile isJoiner).reverse.takeWhile isJoiner).reverse,
      ?_, ?_, ?_, ?_, ?_, ?_, ?_, ?_⟩
    · rw [List.append_assoc, hCT, List.takeWhile_append_dropWhile]
    · intro c hc
      exact List.mem_takeWhile_imp hc
    · intro c hc
      rw [List.mem_reverse] at hc
      exact List.mem_takeWhile_imp hc
    · simpa using hE
    · intro c hc
      have hD : (cs.dropWhile isJoiner).head? = some c := by
        rw [← hCT, List.head?_append, hc, Option.or_some]
      have h6 := List.head?_dropWhile_not isJoiner cs
      rw [hD] at h6
      exact h6
    · intro c hc
      rw [List.getLast?_reverse] at hc
      have h7 :=
        List.head?_dropWhile_not isJoiner (cs.dropWhile isJoiner).reverse
      rw [hc] at h7
      exact h7
    · rw [htok]
      show s + (cs.length - (cs.dropWhile isJoiner).length) = _
      omega
    · rw [htok]
      show s + (cs.length - (cs.dropWhile isJoiner).length)
          + ((cs.dropWhile isJoiner).reverse.dropWhile
              isJoiner).reverse.length = _
      omega

theorem charAt_append_right (P M : List Char) (j : Nat) :
    charAt (P ++ M) (P.length + j) = charAt M j := by
  unfold charAt
  rw [List.getD_eq_getElem?_getD, List.getD_eq_getElem?_getD,
    List.getElem?_append_right (by omega), Nat.add_sub_cancel_left]

theorem charAt_append_left (P M : List Char) (j : Nat) (h : j < P.length) :
    charAt (P ++ M) j = charAt P j := by
  unfold charAt
  rw [List.getD_eq_getElem?_getD, List.getD_eq_getElem?_getD,
    List.getElem?_append_left h]

theorem scan_token_props (t : List Char) (tok : Token) (hm : tok ∈ scan t) :
    tok.start < tok.stop ∧ tok.stop ≤ t.length ∧
    (∀ c ∈ tokChars t tok, wordForming c = true) ∧
    isCore (charAt t tok.start) = true ∧
    isCore (charAt t (tok.stop - 1)) = true ∧
    (0 < tok.start → isCore (charAt t (tok.start - 1)) = false) ∧
    isCore (charAt t tok.stop) = false := by
  unfold scan at hm
  rw [List.mem_filterMap] at hm
  obtain ⟨⟨s, cs⟩, hrun, htrim⟩ := hm
  obtain ⟨pre, post, hdec, hlen, hpreL, hpostH⟩ := runsAux_decomp t 0 s cs hrun
  obtain ⟨csne, cswf⟩ := runsAux_runs_wf t 0 s cs hrun
  obtain ⟨lead, core, trail, hcs, hleadJ, htrailJ, hcorene, hcoreH, hcoreL,
    hstart, hstop⟩ := trimRun_decomp s cs tok htrim
  have hcorewf : ∀ c ∈ core, wordForming c = true := by
    intro c hc
    refine cswf c ?_
    rw [hcs]
    exact List.mem_append.mpr (Or.inl (List.mem_append.mpr (Or.inr hc)))
  have hcorelen : 1 ≤ core.length := by
    cases core with
    | nil => exact absurd rfl hcorene
    | cons _ _ => simp
  have hT2 : t = (pre ++ lead) ++ (core ++ (trail ++ post)) := by
    rw [hdec, hcs]
    simp [List.append_assoc]
  have hP : (pre ++ lead).length = tok.start := by
    rw [List.length_append]
    omega
  have hlenT : t.length
      = (pre ++ lead).length + (core.length + (trail ++ post).length) := by
    rw [hT2]
    simp only [List.length_append]
  have htc : tokChars t tok = core := by
    unfold tokChars
    rw [show tok.stop - tok.start = core.length from by omega, hT2, ← hP,
      List.drop_left, List.take_left]
  refine ⟨by omega, by omega, ?_, ?_, ?_, ?_, ?_⟩
  · rw [htc]
    exact hcorewf
  · have hd : charAt t tok.start = charAt (core ++ (trail ++ post)) 0 := by
      conv_lhs => rw [hT2, ← hP]
      have := charAt_append_right (pre ++ lead) (core ++ (trail ++ post)) 0
      simpa using this
    rw [hd]
    cases core with
    | nil => exact absurd rfl hcorene
    | cons c0 core2 =>
      have hch : charAt ((c0 :: core2) ++ (trail ++ post)) 0 = c0 := rfl
      rw [hch]
      refine wf_not_joiner_core c0 (hcorewf c0 (List.mem_cons_self _ _)) ?_
      exact hcoreH c0 rfl
  · have he : charAt t (tok.stop - 1)
        = charAt (core ++ (trail ++ post)) (core.length - 1) := by
      rw [hT2, show tok.stop - 1 = (pre ++ lead).length + (core.length - 1)
        from by omega, charAt_append_right]
    rw [he]
    have hcl : core.getLast? = some (core.getLast hcorene) :=
      List.getLast?_eq_getLast core hcorene
    have hclmem : core.getLast hcorene ∈ core := List.getLast_mem hcorene
    have hcharE : charAt (core ++ (trail ++ post)) (core.length - 1)
        = core.getLast hcorene := by
      unfold charAt
      rw [List.getD_eq_getElem?_getD, List.getElem?_append_left (by omega),
        ← List.getLast?_eq_getElem?, hcl]
      rfl
    rw [hcharE]
    exact wf_not_joiner_core _ (hcorewf _ hclmem) (hcoreL _ hcl)
  · intro hpos
    have hPne : 1 ≤ (pre ++ lead).length := by omega
    rw [hT2, show tok.start - 1 = (pre ++ lead).length - 1 from by omega,
      charAt_append_left _ _ _ (by omega)]
    unfold charAt
    rw [List.getD_eq_getElem?_getD, ← List.getLast?_eq_getElem?,
      List.getLast?_append]
    cases lead with
    | nil =>
      simp only [List.getLast?_nil, Option.none_or]
      cases hpl : pre.getLast? with
      | none =>
        simp only [Option.getD_none]
        decide
      | some c =>
        simp only [Option.getD_some]
        exact not_wordForming_not_core c (hpreL c hpl)
    | cons l0 lead2 =>
      cases hll : (l0 :: lead2).getLast? with
      | none =>
        rw [List.getLast?_eq_getLast _ (List.cons_ne_nil _ _)] at hll
        cases hll
      | some x =>
        simp only [Option.or_some, Option.getD_some]
        have hxmem : x ∈ l0 :: lead2 := by
          obtain ⟨hne2, hx⟩ :=
            List.mem_getLast?_eq_getLast (Option.mem_def.mpr hll)
          rw [hx]
          exact List.getLast_mem hne2
        exact joiner_not_core x (hleadJ x hxmem)
  · have hstopP : tok.stop = ((pre ++ lead) ++ core).length := by
      rw [List.length_append]
      omega
    have hT3 : t = ((pre ++ lead) ++ core) ++ (trail ++ post) := by
      rw [hT2]
      simp [List.append_assoc]
    rw [hT3, hstopP]
    have h0 : charAt (((pre ++ lead) ++ core) ++ (trail ++ post))
        ((pre ++ lead) ++ core).length = charAt (trail ++ post) 0 := by
      have := charAt_append_right ((pre ++ lead) ++ core) (trail ++ post) 0
      simpa using this
    rw [h0]
    cases trail with
    | cons t0 tr =>
      have hch : charAt ((t0 :: tr) ++ post) 0 = t0 := rfl
      rw [hch]
      exact joiner_not_core t0 (htrailJ t0 (List.mem_cons_self _ _))
    | nil =>
      simp only [List.nil_append]
      cases post with
      | nil => decide
      | cons p0 ps =>
        have hch : charAt (p0 :: ps) 0 = p0 := rfl
        rw [hch]
        exact not_wordForming_not_core p0 (hpostH p0 rfl)

theorem scan_pairwise (t : List Char) :
    List.Pairwise (fun a b => a.stop ≤ b.start) (scan t) := by
  unfold scan
  refine List.Pairwise.filterMap _ ?_ (runsAux_pairwise t 0)
  intro a a2 hR x hx y hy
  obtain ⟨la, ca, ta, hcsa, _, _, hcane, _, _, hxs, hxe⟩ :=
    trimRun_decomp a.1 a.2 x (Option.mem_def.mp hx)
  obtain ⟨lb, cb, tb, hcsb, _, _, hcbne, _, _, hys, hye⟩ :=
    trimRun_decomp a2.1 a2.2 y (Option.mem_def.mp hy)
  have hlea : a.2.length = la.length + ca.length + ta.length := by
    rw [hcsa]
    simp only [List.length_append]
  have hR2 : a.1 + a.2.length ≤ a2.1 := hR
  omega

/-- C6 (confirmed): the tokenizer emits maximal runs of word-forming
units — every token consists solely of word-forming units, starts and
ends on a letter or digit (leading/trailing apostrophes and hyphens are
excluded, interior ones kept), and the units next to a token are not
letters or digits; the empty input and a purely-punctuation input yield
no tokens; and on "don't stop-go 123abc" the scan yields exactly the
tokens for "don't", "stop-go" and "123abc", showing interior joiners
kept and digits joined to letters. -/
theorem c6_tokenizer (t : List Char) :
    (t = [] → scan t = []) ∧
    ((∀ c ∈ t, wordForming c = false) → scan t = []) ∧
    (∀ tok ∈ scan t,
      tok.start < tok.stop ∧ tok.stop ≤ t.length ∧
      (∀ c ∈ tokChars t tok, wordForming c = true) ∧
      isCore (charAt t tok.start) = true ∧
      isCore (charAt t (tok.stop - 1)) = true ∧
      (0 < tok.start → isCore (charAt t (tok.start - 1)) = false) ∧
      isCore (charAt t tok.stop) = false) ∧
    scan ("don't stop-go 123abc".data) = [⟨0, 5⟩, ⟨6, 13⟩, ⟨14, 20⟩] := by
  refine ⟨?_, ?_, ?_, by decide⟩
  · intro h
    subst h
    rfl
  · intro h
    unfold scan
    rw [(runsAux_eq_nil t 0).mpr h]
    rfl
  · intro tok hm
    exact scan_token_props t tok hm

theorem c6_tokenizer_witness :
    scan ([] : List Char) = [] ∧
    scan ("...!? ".data) = [] ∧
    (isCore (charAt ("cats' x".data) 3) = true ∧
      isCore (charAt ("cats' x".data) 4) = false) := by
  refine ⟨(c6_tokenizer []).1 rfl, (c6_tokenizer "...!? ".data).2.1 (by decide),
    ?_, ?_⟩
  · have h := ((c6_tokenizer "cats' x".data).2.2.1 ⟨0, 4⟩ (by decide)).2.2.2.2.1
    simpa using h
  · exact ((c6_tokenizer "cats' x".data).2.2.1 ⟨0, 4⟩ (by decide)).2.2.2.2.2.2

/-- C3 (confirmed): `scanText` returns ranges in ascending,
non-overlapping start order; the substring of every returned range is
misspelled; every token of the text that is not returned is correctly
spelled; and the scan covers all tokens of the whole input — a failing
token never stops later tokens from being reported. -/
theorem c3_scanText (e : Engine) (t : List Char) :
    List.Pairwise (fun a b => a.stop ≤ b.start) (scanText e t) ∧
    (∀ tok ∈ scanText e t, isMisspelled e (tokChars t tok) = true) ∧
    (∀ tok ∈ scan t, tok ∉ scanText e t →
      isMisspelled e (tokChars t tok) = false) := by
  refine ⟨?_, ?_, ?_⟩
  · exact List.Pairwise.filter _ (scan_pairwise t)
  · intro tok hm
    exact (List.mem_filter.mp hm).2
  · intro tok hscan hnot
    by_contra hmiss
    have hmiss2 : isMisspelled e (tokChars t tok) = true := by
      simpa using hmiss
    exact hnot (List.mem_filter.mpr ⟨hscan, hmiss2⟩)

theorem c3_scanText_witness :
    isMisspelled ⟨none, [], [['c', 'a', 't']]⟩
      (tokChars "a cat".data ⟨2, 5⟩) = true :=
  (c3_scanText ⟨none, [], [['c', 'a', 't']]⟩ "a cat".data).2.1 ⟨2, 5⟩
    (by decide)
